import Mathlib

/-!
Verification of the hierarchical authorization and directory-tree engine of
the storageinator repository, as a shallow embedding in Lean 4.

The persistent Mongo collections become lists inside a `Store` record;
`find_one` becomes `List.find?` (first document matching the filter),
`update_one` updates the first matching document, `delete_many` filters, and
`insert_one` appends.  Unbounded `while` loops of the source become
fuel-indexed recursions, with the fuel either large enough to be invisible on
the stores the theorems quantify over, or surfaced as an `Option`/state so
that non-termination of the source is expressible.  `ObjectId()` generation is
modelled by the `nextId` counter of the store: only freshness matters.
-/

/-! ## Data model (src/app/models) -/

/-- `UserRole` from src/app/models/role.py. -/
inductive UserRole
  | super_admin
  | admin
  | user
  | pending
deriving DecidableEq, Repr

/-- `PermissionType` from src/app/models/permission.py. -/
inductive PermissionType
  | read
  | write
  | delete
deriving DecidableEq, Repr

/-- The `.value` of a `PermissionType` member (its string payload). -/
def PermissionType.value : PermissionType → String
  | .read => "read"
  | .write => "write"
  | .delete => "delete"

/-- One row of the `ROLE_PERMISSIONS` table of src/app/models/role.py. -/
structure RolePerms where
  read : Bool
  write : Bool
  delete : Bool
  manage_users : Bool
  access_all : Bool
deriving DecidableEq, Repr

/-- The per-role rows of `ROLE_PERMISSIONS` (src/app/models/role.py). -/
def rolePermissionsRow : UserRole → RolePerms
  | .super_admin => ⟨true, true, true, true, true⟩
  | .admin => ⟨true, true, true, true, false⟩
  | .user => ⟨true, true, false, false, false⟩
  | .pending => ⟨false, false, false, false, false⟩

/-- `ROLE_PERMISSIONS[role].get(permission)`: the inner dict lookup, keyed by
the permission name string; unknown keys give `none`. -/
def ROLE_PERMISSIONS (role : UserRole) (permission : String) : Option Bool :=
  if permission = "read" then some (rolePermissionsRow role).read
  else if permission = "write" then some (rolePermissionsRow role).write
  else if permission = "delete" then some (rolePermissionsRow role).delete
  else if permission = "manage_users" then some (rolePermissionsRow role).manage_users
  else if permission = "access_all" then some (rolePermissionsRow role).access_all
  else none

/-- `has_permission` from src/app/models/role.py: dict `.get(permission, False)`.
(`get_role_permissions` defaults to the USER row only for unknown roles, which
cannot occur for the closed `UserRole` enum.) -/
def has_permission (role : UserRole) (permission : String) : Bool :=
  (ROLE_PERMISSIONS role permission).getD false

/-- A directory document (src/app/models/directory.py / the `directories`
collection).  Identifiers are modelled as naturals. -/
structure Directory where
  id : Nat
  name : String
  owner_id : Nat
  parent_id : Option Nat
  path : String
  is_public : Bool
  created_at : Nat
deriving DecidableEq, Repr

/-- A permission-grant document (src/app/models/permission.py / the
`permissions` collection). -/
structure Grant where
  id : Nat
  user_id : Nat
  directory_id : Nat
  permissions : List PermissionType
  granted_by : Nat
  created_at : Nat
deriving DecidableEq, Repr

/-- A file document (src/app/models/file.py); only the fields the directory
cascade touches are carried. -/
structure FileDoc where
  id : Nat
  filename : String
  directory_id : Nat
  owner_id : Nat
deriving DecidableEq, Repr

/-- A user document (src/app/models/user.py). -/
structure UserDoc where
  id : Nat
  email : String
  role : UserRole
  is_active : Bool
deriving DecidableEq, Repr

/-- The document store: the Mongo collections the core reads and writes,
plus a counter standing in for `ObjectId()` freshness. -/
structure Store where
  dirs : List Directory
  grants : List Grant
  files : List FileDoc
  users : List UserDoc
  nextId : Nat
deriving DecidableEq, Repr

/-- `directories.find_one({"_id": directory_id})`. -/
def findDir (s : Store) (directory_id : Nat) : Option Directory :=
  s.dirs.find? (fun d => d.id == directory_id)

/-- `permissions.find_one({"user_id": user_id, "directory_id": dir_id})`. -/
def findGrant (s : Store) (user_id directory_id : Nat) : Option Grant :=
  s.grants.find? (fun g => g.user_id == user_id && g.directory_id == directory_id)

/-! ## PermissionService.check_permission (src/app/services/permission_service.py) -/

/-- The `while current.get("parent_id")` loop of `check_permission`: the
parent id is appended to the path *before* it is looked up, and a failed
lookup breaks the loop, so a dangling parent id ends the accumulated path.
The source loop has no bound; the fuel is only a device to make the
definition total, and every theorem below works at a fuel the walk cannot
exhaust on the store it talks about. -/
def pathIdsAux (s : Store) : Nat → Directory → List Nat → List Nat
  | fuel, current, acc =>
    match current.parent_id with
    | none => acc
    | some p =>
      match fuel with
      | 0 => acc
      | fuel' + 1 =>
        match findDir s p with
        | none => acc ++ [p]
        | some d => pathIdsAux s fuel' d (acc ++ [p])

/-- `path_ids` as built by `check_permission` for a target directory that was
found: the target id first, then ancestors from nearest to farthest. -/
def pathIds (s : Store) (directory_id : Nat) (dir : Directory) : List Nat :=
  pathIdsAux s s.dirs.length dir [directory_id]

/-- The `for dir_id in path_ids` loop of `check_permission`: the first grant
found decides, by membership of the requested permission in its set. -/
def scanPath (s : Store) (user_id : Nat) (permission_type : PermissionType) :
    List Nat → Bool
  | [] => false
  | dir_id :: rest =>
    match findGrant s user_id dir_id with
    | some perm => decide (permission_type ∈ perm.permissions)
    | none => scanPath s user_id permission_type rest

/-- `PermissionService.check_permission`. -/
def check_permission (s : Store) (user_id directory_id : Nat)
    (permission_type : PermissionType) : Bool :=
  match findDir s directory_id with
  | none => false
  | some dir =>
    if dir.owner_id = user_id then true
    else scanPath s user_id permission_type (pathIds s directory_id dir)

/-- `PermissionService.can_access_directory`. -/
def can_access_directory (s : Store) (user_id directory_id : Nat) : Bool :=
  match findDir s directory_id with
  | none => false
  | some dir =>
    if dir.owner_id = user_id then true
    else check_permission s user_id directory_id PermissionType.read

/-! ## DirectoryService helpers (src/app/services/directory_service.py) -/

/-- `DirectoryService.is_owner`: `find_one({"_id": ..., "owner_id": ...})`. -/
def is_owner (s : Store) (directory_id user_id : Nat) : Bool :=
  (s.dirs.find? (fun d => d.id == directory_id && d.owner_id == user_id)).isSome

/-- `DirectoryService.is_public`. -/
def is_public (s : Store) (directory_id : Nat) : Bool :=
  match findDir s directory_id with
  | some d => d.is_public
  | none => false

/-! ## PermissionChecker (src/app/api/deps.py) -/

/-- The identity of the authenticated caller, as `PermissionChecker` sees it. -/
structure CurrentUser where
  id : Nat
  role : UserRole
deriving DecidableEq, Repr

/-- The outcome of `PermissionChecker.__call__`: `allowed` is `return True`,
`roleForbidden` the 403 raised at the role gate, `grantForbidden` the 403
raised after the directory-specific check fails. -/
inductive CheckOutcome
  | allowed
  | roleForbidden
  | grantForbidden
deriving DecidableEq, Repr

/-- `PermissionChecker.__call__` (src/app/api/deps.py, lines 109-157). -/
def permissionChecker (s : Store) (permission_type : PermissionType)
    (directory_id : Nat) (current_user : CurrentUser) : CheckOutcome :=
  if current_user.role = UserRole.super_admin then .allowed
  else if (permission_type = .read ∨ permission_type = .write) ∧
      is_public s directory_id then .allowed
  else if current_user.role = UserRole.admin ∧
      is_owner s directory_id current_user.id then .allowed
  else if ¬ has_permission current_user.role permission_type.value then .roleForbidden
  else if is_owner s directory_id current_user.id then .allowed
  else if check_permission s current_user.id directory_id permission_type then .allowed
  else .grantForbidden

/-! ## DirectoryService.get_user_directories / get_directory_tree -/

/-- One iteration of the dedup loops of `get_user_directories`: append the
document and record its id unless the id was already collected. -/
def addIfNew (acc : List Directory × List Nat) (d : Directory) :
    List Directory × List Nat :=
  if d.id ∈ acc.2 then acc else (acc.1 ++ [d], acc.2 ++ [d.id])

/-- `DirectoryService.get_user_directories`.  A super admin gets every
directory; otherwise owned directories come first, then public ones not
already collected, then directories carrying any grant for the user (the
`$in` query returns each matching document once) not already collected. -/
def get_user_directories (s : Store) (user_id : Nat) (user_role : UserRole) :
    List Directory :=
  if user_role = UserRole.super_admin then s.dirs
  else
    let owned := s.dirs.filter (fun d => d.owner_id == user_id)
    let step1 := (s.dirs.filter (fun d => d.is_public)).foldl addIfNew
      (owned, owned.map (fun d => d.id))
    let shared_ids := (s.grants.filter (fun g => g.user_id == user_id)).map
      (fun g => g.directory_id)
    let shared := s.dirs.filter (fun d => d.id ∈ shared_ids)
    step1.1 ++ shared.filter (fun d => d.id ∉ step1.2)

/-- A node of the tree response (`DirectoryTree` of src/app/models/directory.py). -/
structure DirectoryTree where
  id : Nat
  name : String
  parent_id : Option Nat
  is_public : Bool
  owner_id : Nat
  children : List DirectoryTree
deriving Repr

/-- Denotation of one dict node built by `get_directory_tree`: since children
are appended to shared mutable nodes, the final node for a visible directory
`d` holds, as children, the nodes of exactly the visible directories whose
`parent_id` is `d.id`.  The fuel bounds the nesting depth; nodes on a parent
cycle are unreachable from any root in the source as well. -/
def buildNode (vis : List Directory) : Nat → Directory → DirectoryTree
  | 0, d => ⟨d.id, d.name, d.parent_id, d.is_public, d.owner_id, []⟩
  | fuel + 1, d =>
    ⟨d.id, d.name, d.parent_id, d.is_public, d.owner_id,
      (vis.filter (fun c => c.parent_id == some d.id)).map (buildNode vis fuel)⟩

/-- The root test of `get_directory_tree`: a node is attached under its parent
only when `parent_id` is set and the parent is itself visible. -/
def isTreeRoot (visIds : List Nat) (d : Directory) : Bool :=
  match d.parent_id with
  | none => true
  | some p => decide (p ∉ visIds)

/-- `DirectoryService.get_directory_tree`: the forest of root nodes over the
visibility set of `get_user_directories`. -/
def get_directory_tree (s : Store) (user_id : Nat) (user_role : UserRole) :
    List DirectoryTree :=
  let all_dirs := get_user_directories s user_id user_role
  let ids := all_dirs.map (fun d => d.id)
  (all_dirs.filter (isTreeRoot ids)).map (buildNode all_dirs all_dirs.length)

/-! ## DirectoryService._get_descendant_ids and delete_directory -/

/-- `directories.find({"parent_id": parent_id})`, projected to ids. -/
def childIds (s : Store) (parent_id : Nat) : List Nat :=
  (s.dirs.filter (fun d => d.parent_id == some parent_id)).map (fun d => d.id)

/-- The queue loop of `_get_descendant_ids`, one fuel per pop.  The source
loop is unbounded and has no visited set; `none` records that the queue was
still non-empty when the fuel ran out (on a parent cycle the source loops
forever, so no fuel returns `some` there). -/
def getDescendantIdsAux (s : Store) : Nat → List Nat → List Nat → Option (List Nat)
  | _, [], result => some result
  | 0, _ :: _, _ => none
  | fuel + 1, parent_id :: queue, result =>
    getDescendantIdsAux s fuel (queue ++ childIds s parent_id)
      (result ++ childIds s parent_id)

/-- `DirectoryService._get_descendant_ids` at a given fuel. -/
def get_descendant_ids (s : Store) (directory_id : Nat) (fuel : Nat) :
    Option (List Nat) :=
  getDescendantIdsAux s fuel [directory_id] []

/-- The queue loop again, but returning the raw (queue, result) state after at
most `fuel` pops, so that intermediate states of the source loop can be
inspected. -/
def descendState (s : Store) : Nat → List Nat → List Nat → List Nat × List Nat
  | 0, queue, result => (queue, result)
  | _ + 1, [], result => ([], result)
  | fuel + 1, parent_id :: queue, result =>
    descendState s fuel (queue ++ childIds s parent_id)
      (result ++ childIds s parent_id)

/-- Phase 1 of the cascade: `files.delete_many({"directory_id": {"$in": all_ids}})`. -/
def deleteFilesIn (s : Store) (ids : List Nat) : Store :=
  { s with files := s.files.filter (fun f => f.directory_id ∉ ids) }

/-- Phase 2 of the cascade: `permissions.delete_many({"directory_id": {"$in": all_ids}})`. -/
def deleteGrantsIn (s : Store) (ids : List Nat) : Store :=
  { s with grants := s.grants.filter (fun g => g.directory_id ∉ ids) }

/-- Phase 3 of the cascade: `directories.delete_many({"_id": {"$in": all_ids}})`. -/
def deleteDirsIn (s : Store) (ids : List Nat) : Store :=
  { s with dirs := s.dirs.filter (fun d => d.id ∉ ids) }

/-- The sequence of store states the cascade branch of `delete_directory`
passes through: initial, after the file phase, after the grant phase, after
the directory phase — in exactly that order. -/
def cascadeStates (s : Store) (all_ids : List Nat) : List Store :=
  [s, deleteFilesIn s all_ids,
    deleteGrantsIn (deleteFilesIn s all_ids) all_ids,
    deleteDirsIn (deleteGrantsIn (deleteFilesIn s all_ids) all_ids) all_ids]

/-- The errors `delete_directory` raises: the ownership `PermissionError` and
the two cascade-required `ValueError`s. -/
inductive DeleteError
  | notAuthorized
  | hasSubdirectories
  | hasFiles
deriving DecidableEq, Repr

/-- `DirectoryService.delete_directory`.  The outer `Option` is fuel
exhaustion of the descendant enumeration (the source would not return);
`.ok (false, s)` is the `return False` of a missing target, `.ok (true, _)`
the successful deletion. -/
def delete_directory (s : Store) (directory_id user_id : Nat)
    (user_role : UserRole) (cascade : Bool) (fuel : Nat) :
    Option (Except DeleteError (Bool × Store)) :=
  match findDir s directory_id with
  | none => some (.ok (false, s))
  | some dir =>
    if dir.owner_id ≠ user_id ∧ user_role ≠ UserRole.super_admin then
      some (.error .notAuthorized)
    else if (s.dirs.find? (fun d => d.parent_id == some directory_id)).isSome ∧
        cascade = false then
      some (.error .hasSubdirectories)
    else if (s.files.find? (fun f => f.directory_id == directory_id)).isSome ∧
        cascade = false then
      some (.error .hasFiles)
    else if cascade then
      (get_descendant_ids s directory_id fuel).map (fun descendant_ids =>
        let all_ids := directory_id :: descendant_ids
        .ok (true,
          deleteDirsIn (deleteGrantsIn (deleteFilesIn s all_ids) all_ids) all_ids))
    else
      some (.ok (true,
        { s with
          grants := s.grants.filter (fun g => g.directory_id ≠ directory_id),
          dirs := s.dirs.eraseP (fun d => d.id == directory_id) }))

/-! ## PermissionService.grant_permission -/

/-- The errors `grant_permission` raises. -/
inductive GrantError
  | directoryNotFound
  | notOwner
  | userNotFound
  | selfGrant
deriving DecidableEq, Repr

/-- `update_one`: modify the first document matching the filter. -/
def updateFirst (p : Grant → Bool) (f : Grant → Grant) : List Grant → List Grant
  | [] => []
  | g :: gs => if p g then f g :: gs else g :: updateFirst p f gs

/-- `PermissionService.grant_permission`, returning the updated store.  The
re-fetch of the written document for the `PermissionResponse` is presentation
only and changes no state, so it is not carried. -/
def grant_permission (s : Store) (user_email : String)
    (perms : List PermissionType) (directory_id granted_by now : Nat) :
    Except GrantError Store :=
  match findDir s directory_id with
  | none => .error .directoryNotFound
  | some directory =>
    if directory.owner_id ≠ granted_by then .error .notOwner
    else
      match s.users.find? (fun u => u.email == user_email) with
      | none => .error .userNotFound
      | some user =>
        if user.id = granted_by then .error .selfGrant
        else
          match s.grants.find?
              (fun g => g.user_id == user.id && g.directory_id == directory_id) with
          | some existing =>
            .ok { s with grants := (updateFirst (fun g => g.id == existing.id)
              (fun g => { g with permissions := perms }) s.grants) }
          | none =>
            .ok { s with
              grants := s.grants ++
                [⟨s.nextId, user.id, directory_id, perms, granted_by, now⟩],
              nextId := s.nextId + 1 }

/-! ## The GET /directories/{id} endpoint (src/app/api/directories.py) -/

/-- Outcome of the single-directory fetch endpoint: 404, 403, or the
directory payload. -/
inductive GetDirResult
  | notFound
  | forbidden
  | ok (d : Directory)
deriving DecidableEq, Repr

/-- The `get_directory` route handler (src/app/api/directories.py, 63-99). -/
def get_directory_endpoint (s : Store) (directory_id : Nat)
    (current_user : CurrentUser) : GetDirResult :=
  match findDir s directory_id with
  | none => .notFound
  | some directory =>
    if current_user.role = UserRole.super_admin then .ok directory
    else if directory.is_public then .ok directory
    else if directory.owner_id = current_user.id then .ok directory
    else if can_access_directory s current_user.id directory_id then .ok directory
    else .forbidden

/-! ## Derived notions used by the statements -/

/-- The child relation induced by the stored `parent_id` links. -/
def IsChild (s : Store) (p c : Nat) : Prop := c ∈ childIds s p

/-- Termination measure for the descendant traversal: each queue entry `y`
weighs `(N+1)^(rank y + 1)`, so popping an entry and pushing its at most
`N` children of smaller rank strictly decreases the total. -/
def bfsWeight (N : Nat) (rank : Nat → Nat) (q : List Nat) : Nat :=
  (q.map (fun y => (N + 1) ^ (rank y + 1))).sum

/-- Store well-formedness for the grant collection: `_id`s are distinct and
below the freshness counter, and at most one grant exists per
(user, directory) pair (the invariant C7 is about). -/
def GrantsWF (s : Store) : Prop :=
  (s.grants.map (fun g => g.id)).Nodup ∧
  (∀ g ∈ s.grants, g.id < s.nextId) ∧
  (s.grants.map (fun g => (g.user_id, g.directory_id))).Nodup

/-- The grant records of a given (user, directory) pair. -/
def grantsFor (s : Store) (user_id directory_id : Nat) : List Grant :=
  s.grants.filter (fun g => g.user_id == user_id && g.directory_id == directory_id)

/-- No orphan references: every file or grant still present in `st` whose
`directory_id` belongs to the cascade plan points at a directory that is
also still present in `st`. -/
def NoCascadeOrphans (s0 st : Store) (plan : List Nat) : Prop :=
  (∀ f ∈ st.files, ∀ d ∈ s0.dirs, f.directory_id = d.id → d.id ∈ plan → d ∈ st.dirs) ∧
  (∀ g ∈ st.grants, ∀ d ∈ s0.dirs, g.directory_id = d.id → d.id ∈ plan → d ∈ st.dirs)

/-! ## Concrete stores used by witnesses and counterexamples -/

/-- A three-level chain `1 → 2 → 3` with a public root, a file in the leaf,
and two grants for user 5: `{read}` on directory 2 shadowing
`{read, write, delete}` on its ancestor 1. -/
def storeChain : Store :=
  { dirs := [⟨1, "a", 100, none, "/a", true, 0⟩,
      ⟨2, "b", 100, some 1, "/a/b", false, 0⟩,
      ⟨3, "c", 100, some 2, "/a/b/c", false, 0⟩],
    grants := [⟨50, 5, 2, [.read], 100, 0⟩,
      ⟨51, 5, 1, [.read, .write, .delete], 100, 0⟩],
    files := [⟨70, "f.txt", 3, 100⟩],
    users := [⟨100, "o@x", .admin, true⟩, ⟨5, "u@x", .user, true⟩],
    nextId := 200 }

/-- A single private directory owned by user 5. -/
def storeOwnerOnly : Store :=
  { dirs := [⟨1, "d", 5, none, "/d", false, 0⟩],
    grants := [], files := [], users := [⟨5, "u@x", .user, true⟩], nextId := 10 }

/-- A single public directory owned by user 100, with no grants at all. -/
def storePublic : Store :=
  { dirs := [⟨1, "p", 100, none, "/p", true, 0⟩],
    grants := [], files := [], users := [⟨100, "o@x", .admin, true⟩], nextId := 10 }

/-- A private directory owned by 100 with an explicit `{delete}` grant for
user 5 on the target itself. -/
def storeDeleteGrant : Store :=
  { dirs := [⟨1, "d", 100, none, "/d", false, 0⟩],
    grants := [⟨61, 5, 1, [.delete], 100, 0⟩],
    files := [], users := [⟨100, "o@x", .admin, true⟩, ⟨5, "u@x", .user, true⟩],
    nextId := 200 }

/-- A private directory owned by 100 with a `{write}`-only grant for user 5
on the target itself. -/
def storeWriteGrant : Store :=
  { dirs := [⟨2, "d", 100, none, "/d", false, 0⟩],
    grants := [⟨60, 5, 2, [.write], 100, 0⟩],
    files := [], users := [⟨100, "o@x", .admin, true⟩, ⟨5, "u@x", .user, true⟩],
    nextId := 200 }

/-- A directory whose `parent_id` dangles: 99 is stored nowhere. -/
def storeDangling : Store :=
  { dirs := [⟨4, "z", 100, some 99, "/z", false, 0⟩],
    grants := [], files := [], users := [⟨100, "o@x", .admin, true⟩], nextId := 10 }

/-- A store whose parent links form a two-cycle `10 ↔ 11`, violating the
tree invariant of the store. -/
def storeCycle : Store :=
  { dirs := [⟨10, "x", 1, some 11, "/x", false, 0⟩,
      ⟨11, "y", 1, some 10, "/y", false, 0⟩],
    grants := [], files := [], users := [], nextId := 20 }

/-- A store in which user 1 owns directory 10, user 2 (email `b@x`) exists,
and no grant has been issued yet. -/
def storeGrantNone : Store :=
  { dirs := [⟨10, "d", 1, none, "/d", false, 0⟩],
    grants := [],
    files := [],
    users := [⟨1, "a@x", .user, true⟩, ⟨2, "b@x", .user, true⟩],
    nextId := 100 }

/-- A store in which user 1 owns directory 10 and user 2 (email `b@x`)
already holds a `{read}` grant on it: the state reached by granting `{read}`
from the empty grant collection. -/
def storeGrantRead : Store :=
  { dirs := [⟨10, "d", 1, none, "/d", false, 0⟩],
    grants := [⟨100, 2, 10, [.read], 1, 3⟩],
    files := [],
    users := [⟨1, "a@x", .user, true⟩, ⟨2, "b@x", .user, true⟩],
    nextId := 101 }

/-- `storeGrantRead` after granting `{write}` to the same pair: the single
record is updated in place. -/
def storeGrantWrite : Store :=
  { dirs := [⟨10, "d", 1, none, "/d", false, 0⟩],
    grants := [⟨100, 2, 10, [.write], 1, 3⟩],
    files := [],
    users := [⟨1, "a@x", .user, true⟩, ⟨2, "b@x", .user, true⟩],
    nextId := 101 }

/-! ## Shared lemmas about the embedded operations -/

lemma findDir_mem {s : Store} {D : Nat} {dir : Directory}
    (h : findDir s D = some dir) : dir ∈ s.dirs ∧ dir.id = D := by
  refine ⟨List.mem_of_find?_eq_some h, ?_⟩
  have hp := List.find?_some h
  simpa using hp

lemma dirs_id_inj {s : Store} (hnd : (s.dirs.map (fun d => d.id)).Nodup)
    {a b : Directory} (ha : a ∈ s.dirs) (hb : b ∈ s.dirs) (hid : a.id = b.id) :
    a = b :=
  List.inj_on_of_nodup_map hnd ha hb hid

lemma is_owner_true {s : Store} {D u : Nat} {dir : Directory}
    (h : findDir s D = some dir) (hown : dir.owner_id = u) :
    is_owner s D u = true := by
  obtain ⟨hmem, hid⟩ := findDir_mem h
  unfold is_owner
  rw [List.find?_isSome.mpr ⟨dir, hmem, by simp [hid, hown]⟩]

lemma is_owner_false {s : Store} {D u : Nat} {dir : Directory}
    (hnd : (s.dirs.map (fun d => d.id)).Nodup)
    (h : findDir s D = some dir) (hown : dir.owner_id ≠ u) :
    is_owner s D u = false := by
  obtain ⟨hmem, hid⟩ := findDir_mem h
  unfold is_owner
  have hnone : s.dirs.find? (fun d => d.id == D && d.owner_id == u) = none := by
    apply List.find?_eq_none.mpr
    intro x hx hpx
    simp only [Bool.and_eq_true, beq_iff_eq] at hpx
    have hxd : x = dir := dirs_id_inj hnd hx hmem (by rw [hpx.1, hid])
    exact hown (by rw [← hxd]; exact hpx.2)
  rw [hnone]
  rfl

lemma scanPath_eq_false {s : Store} {u : Nat} {a : PermissionType} {ids : List Nat}
    (h : ∀ i ∈ ids, findGrant s u i = none) : scanPath s u a ids = false := by
  induction ids with
  | nil => rfl
  | cons i rest ih =>
    have hi := h i (List.mem_cons_self i rest)
    simp only [scanPath, hi]
    exact ih fun j hj => h j (List.mem_cons_of_mem i hj)

lemma scanPath_first {s : Store} {u : Nat} {a : PermissionType} {g : Grant}
    {pre post : List Nat} {gd : Nat}
    (hpre : ∀ j ∈ pre, findGrant s u j = none)
    (hg : findGrant s u gd = some g) :
    scanPath s u a (pre ++ gd :: post) = decide (a ∈ g.permissions) := by
  induction pre with
  | nil => simp [scanPath, hg]
  | cons j rest ih =>
    have hj := hpre j (List.mem_cons_self j rest)
    simp only [List.cons_append, scanPath, hj]
    exact ih fun x hx => hpre x (List.mem_cons_of_mem j hx)

lemma scanPath_eq_findSome {s : Store} {u : Nat} {a : PermissionType} (ids : List Nat) :
    scanPath s u a ids =
      match ids.findSome? (fun i => findGrant s u i) with
      | some g => decide (a ∈ g.permissions)
      | none => false := by
  induction ids with
  | nil => rfl
  | cons i rest ih =>
    simp only [scanPath, List.findSome?_cons]
    cases hi : findGrant s u i with
    | some g => rfl
    | none => exact ih

lemma findGrant_eq_none {s : Store} {u : Nat}
    (h : ∀ g ∈ s.grants, g.user_id ≠ u) (d : Nat) : findGrant s u d = none := by
  apply List.find?_eq_none.mpr
  intro g hg hpg
  simp only [Bool.and_eq_true, beq_iff_eq] at hpg
  exact h g hg hpg.1

lemma check_permission_not_owner {s : Store} {u D : Nat} {a : PermissionType}
    {dir : Directory} (h : findDir s D = some dir) (hown : dir.owner_id ≠ u) :
    check_permission s u D a = scanPath s u a (pathIds s D dir) := by
  unfold check_permission
  rw [h]
  simp [hown]

/-! ## C1 — owner invariant -/

/-- C1 (amended): ownership always allows in the resolver
`check_permission`, independent of role and of any grants; in the full
access check `PermissionChecker.__call__` the role-capability gate runs
before the ownership check, so an owner is allowed exactly on the actions
the role table also permits. -/
theorem c1_owner_invariant (s : Store) (u D : Nat) (a : PermissionType)
    (dir : Directory) (role : UserRole)
    (hfind : findDir s D = some dir) (hown : dir.owner_id = u)
    (hrole : has_permission role a.value = true) :
    check_permission s u D a = true ∧
    permissionChecker s a D ⟨u, role⟩ = .allowed := by
  constructor
  · unfold check_permission
    rw [hfind]
    simp [hown]
  · have hio := is_owner_true hfind hown
    simp [permissionChecker, hio, hrole]

/-- C1 witness: the owner of the private directory of `storeOwnerOnly` is
allowed to write through both entry points. -/
theorem c1_owner_invariant_witness :
    check_permission storeOwnerOnly 5 1 .write = true ∧
    permissionChecker storeOwnerOnly .write 1 ⟨5, .user⟩ = .allowed :=
  c1_owner_invariant storeOwnerOnly 5 1 .write ⟨1, "d", 5, none, "/d", false, 0⟩
    .user (by decide) (by decide) (by decide)

/-- C1 counterexample: user 5 owns directory 1 of `storeOwnerOnly`, yet the
full access decision for delete is a role-gate denial, because the role
table denies delete to the `user` role and the gate runs before the
ownership check — refuting "the access decision is allow … independent of
U's role". -/
theorem c1_claim_counterexample :
    is_owner storeOwnerOnly 1 5 = true ∧
    permissionChecker storeOwnerOnly .delete 1 ⟨5, .user⟩ = .roleForbidden := by
  decide

/-! ## C2 — shadowing -/

/-- C2 (confirmed): in `check_permission`, for a non-owner of an existing
target, if the walk order `pathIds` splits as `pre ++ gd :: post` with no
grant for the user on `pre` and a grant `g` on `gd`, then the decision is
exactly membership of the action in `g`'s capability set — the first grant
found is authoritative and the `post` ancestors are never consulted. -/
theorem c2_shadowing (s : Store) (u D : Nat) (a : PermissionType)
    (dir : Directory) (g : Grant) (pre post : List Nat) (gd : Nat)
    (hfind : findDir s D = some dir) (hown : dir.owner_id ≠ u)
    (hpath : pathIds s D dir = pre ++ gd :: post)
    (hpre : ∀ j ∈ pre, findGrant s u j = none)
    (hg : findGrant s u gd = some g) :
    check_permission s u D a = decide (a ∈ g.permissions) := by
  rw [check_permission_not_owner hfind hown, hpath]
  exact scanPath_first hpre hg

/-- C2 witness: in `storeChain`, user 5 holds `{read}` on directory 2 and
`{read, write, delete}` on its ancestor 1; the decision for write on 2 is
the nearer grant's answer, deny. -/
theorem c2_shadowing_witness :
    check_permission storeChain 5 2 .write =
      decide (PermissionType.write ∈ [PermissionType.read]) ∧
    check_permission storeChain 5 2 .write = false := by
  constructor
  · exact c2_shadowing storeChain 5 2 .write ⟨2, "b", 100, some 1, "/a/b", false, 0⟩
      ⟨50, 5, 2, [.read], 100, 0⟩ [] [1] 2
      (by decide) (by decide) (by decide) (by decide) (by decide)
  · decide

/-! ## C3 — role ceiling -/

/-- C3 (amended): for a non-owner, non-super-admin principal whose role
table denies the action, `PermissionChecker` answers the role-gate denial
on every directory and for every grant configuration — except that a public
directory short-circuits to allow for read and write before the role gate
is reached. -/
theorem c3_role_ceiling (s : Store) (u D : Nat) (a : PermissionType)
    (role : UserRole)
    (hsa : role ≠ .super_admin)
    (hown : is_owner s D u = false)
    (hrole : has_permission role a.value = false)
    (hpub : ¬((a = .read ∨ a = .write) ∧ is_public s D = true)) :
    permissionChecker s a D ⟨u, role⟩ = .roleForbidden := by
  simp [permissionChecker, hsa, hown, hrole, hpub]

/-- C3 witness: user 5 has an explicit `{delete}` grant on directory 1 of
`storeDeleteGrant`, but with role `user` the delete decision is the
role-gate denial. -/
theorem c3_role_ceiling_witness :
    permissionChecker storeDeleteGrant .delete 1 ⟨5, .user⟩ = .roleForbidden :=
  c3_role_ceiling storeDeleteGrant 5 1 .delete .user
    (by decide) (by decide) (by decide) (by decide)

/-- C3 counterexample: a `pending`-role user, whose role table denies read,
is nevertheless allowed to read the public directory of `storePublic` —
the public fast path runs before the role gate, refuting "denies that
action on every directory". -/
theorem c3_claim_counterexample :
    permissionChecker storePublic .read 1 ⟨7, .pending⟩ = .allowed ∧
    has_permission UserRole.pending PermissionType.read.value = false ∧
    is_owner storePublic 1 7 = false ∧
    UserRole.pending ≠ UserRole.super_admin := by
  decide

/-! ## C4 — public read/write, never delete -/

/-- C4 (amended): on a public directory with no grants for the user, every
user may read and write; delete is denied unless the user owns the
directory or holds the super-admin role (the super-admin override allows
delete to a non-owner, which the original claim excluded). -/
theorem c4_public_no_delete (s : Store) (u D : Nat) (role : UserRole)
    (dir : Directory)
    (hnd : (s.dirs.map (fun d => d.id)).Nodup)
    (hfind : findDir s D = some dir) (hpub : dir.is_public = true)
    (hnog : ∀ g ∈ s.grants, g.user_id ≠ u) :
    permissionChecker s .read D ⟨u, role⟩ = .allowed ∧
    permissionChecker s .write D ⟨u, role⟩ = .allowed ∧
    (role ≠ .super_admin → dir.owner_id ≠ u →
      permissionChecker s .delete D ⟨u, role⟩ ≠ .allowed) := by
  have hip : is_public s D = true := by
    unfold is_public
    rw [hfind]
    exact hpub
  refine ⟨?_, ?_, ?_⟩
  · by_cases hr : role = UserRole.super_admin
    · simp [permissionChecker, hr]
    · simp [permissionChecker, hr, hip]
  · by_cases hr : role = UserRole.super_admin
    · simp [permissionChecker, hr]
    · simp [permissionChecker, hr, hip]
  · intro hsa hown
    have hio := is_owner_false hnd hfind hown
    have hcp : check_permission s u D .delete = false := by
      rw [check_permission_not_owner hfind hown]
      exact scanPath_eq_false fun i _ => findGrant_eq_none hnog i
    cases role with
    | super_admin => exact absurd rfl hsa
    | admin =>
      simp [permissionChecker, hio, hcp, has_permission, ROLE_PERMISSIONS,
        rolePermissionsRow, PermissionType.value]
    | user =>
      simp [permissionChecker, hio, has_permission, ROLE_PERMISSIONS,
        rolePermissionsRow, PermissionType.value]
    | pending =>
      simp [permissionChecker, hio, has_permission, ROLE_PERMISSIONS,
        rolePermissionsRow, PermissionType.value]

/-- C4 witness: an unrelated `user`-role principal on the public grant-free
directory of `storePublic`: read and write allowed, delete denied. -/
theorem c4_public_no_delete_witness :
    permissionChecker storePublic .read 1 ⟨7, .user⟩ = .allowed ∧
    permissionChecker storePublic .write 1 ⟨7, .user⟩ = .allowed ∧
    permissionChecker storePublic .delete 1 ⟨7, .user⟩ ≠ .allowed := by
  obtain ⟨h1, h2, h3⟩ := c4_public_no_delete storePublic 7 1 .user
    ⟨1, "p", 100, none, "/p", true, 0⟩ (by decide) (by decide) (by decide) (by decide)
  exact ⟨h1, h2, h3 (by decide) (by decide)⟩

/-- C4 counterexample: a super-admin who does not own the public grant-free
directory of `storePublic` is allowed to delete it, refuting "denies delete
unless the user is D's owner". -/
theorem c4_claim_counterexample :
    permissionChecker storePublic .delete 1 ⟨9, .super_admin⟩ = .allowed ∧
    is_owner storePublic 1 9 = false ∧
    storePublic.grants = [] := by
  decide

/-! ## C8 — ancestor-walk safety on a dangling parent link -/

/-- C8 (confirmed): for an existing non-owned target, the walk of
`check_permission` is total (the embedding raises nothing): a `parent_id`
pointing at a directory the store does not hold ends the accumulated path
right after that id, and when no grant for the user lies on the traversed
path the decision falls through to deny. -/
theorem c8_dangling_parent (s : Store) (u D : Nat) (a : PermissionType)
    (dir : Directory) (p : Nat)
    (hfind : findDir s D = some dir) (hown : dir.owner_id ≠ u)
    (hnog : ∀ i ∈ pathIds s D dir, findGrant s u i = none) :
    check_permission s u D a = false ∧
    (dir.parent_id = some p → findDir s p = none → pathIds s D dir = [D, p]) := by
  constructor
  · rw [check_permission_not_owner hfind hown]
    exact scanPath_eq_false hnog
  · intro hp hnp
    obtain ⟨hmem, _⟩ := findDir_mem hfind
    obtain ⟨n, hn⟩ : ∃ n, s.dirs.length = n + 1 := by
      have hpos : 0 < s.dirs.length := List.length_pos_of_mem hmem
      exact ⟨s.dirs.length - 1, by omega⟩
    unfold pathIds
    rw [hn]
    simp [pathIdsAux, hp, hnp]

/-- C8 witness: directory 4 of `storeDangling` has the dangling parent 99;
the walk path is `[4, 99]` and the decision for user 5 is deny. -/
theorem c8_dangling_parent_witness :
    check_permission storeDangling 5 4 .read = false ∧
    pathIds storeDangling 4 ⟨4, "z", 100, some 99, "/z", false, 0⟩ = [4, 99] := by
  obtain ⟨h1, h2⟩ := c8_dangling_parent storeDangling 5 4 .read
    ⟨4, "z", 100, some 99, "/z", false, 0⟩ 99 (by decide) (by decide) (by decide)
  exact ⟨h1, h2 (by decide) (by decide)⟩

/-! ## C10 — single-directory fetch requires read in the nearest grant -/

lemma foldl_addIfNew_snd : ∀ (l : List Directory) (acc : List Directory × List Nat),
    acc.2 = acc.1.map (fun d => d.id) →
    (l.foldl addIfNew acc).2 = (l.foldl addIfNew acc).1.map (fun d => d.id) := by
  intro l
  induction l with
  | nil => exact fun acc h => h
  | cons d rest ih =>
    intro acc h
    simp only [List.foldl_cons]
    by_cases hd : d.id ∈ acc.2
    · rw [show addIfNew acc d = acc from by simp [addIfNew, hd]]
      exact ih acc h
    · apply ih
      rw [show addIfNew acc d = (acc.1 ++ [d], acc.2 ++ [d.id]) from by
        simp [addIfNew, hd]]
      simp [h]

lemma mem_vis_of_grant {s : Store} {u D : Nat} {role : UserRole} {dir : Directory}
    {g : Grant}
    (hrole : role ≠ .super_admin)
    (hfind : findDir s D = some dir)
    (hg : g ∈ s.grants) (hgu : g.user_id = u) (hgd : g.directory_id = D) :
    ∃ d ∈ get_user_directories s u role, d.id = D := by
  obtain ⟨hmem, hid⟩ := findDir_mem hfind
  unfold get_user_directories
  rw [if_neg hrole]
  dsimp only
  have hsha : dir.id ∈ ((s.grants.filter (fun x => x.user_id == u)).map
      (fun x => x.directory_id)) := by
    rw [hid, ← hgd]
    exact List.mem_map_of_mem _ (List.mem_filter.mpr ⟨hg, by simp [hgu]⟩)
  have hshared : dir ∈ s.dirs.filter (fun d => decide (d.id ∈
      ((s.grants.filter (fun x => x.user_id == u)).map (fun x => x.directory_id)))) :=
    List.mem_filter.mpr ⟨hmem, by simpa using hsha⟩
  set owned := s.dirs.filter (fun d => d.owner_id == u) with howned
  set step1 := (s.dirs.filter (fun d => d.is_public)).foldl addIfNew
    (owned, owned.map (fun d => d.id)) with hstep1
  have hsnd : step1.2 = step1.1.map (fun d => d.id) :=
    foldl_addIfNew_snd _ _ (by simp)
  by_cases hin : dir.id ∈ step1.2
  · rw [hsnd] at hin
    obtain ⟨y, hy, hyid⟩ := List.mem_map.mp hin
    exact ⟨y, List.mem_append_left _ hy, by rw [hyid, hid]⟩
  · refine ⟨dir, List.mem_append_right _ ?_, hid⟩
    exact List.mem_filter.mpr ⟨hshared, by simpa using hin⟩

/-- C10 (confirmed): for a user who is neither super-admin nor the owner of
an existing non-public directory, the single-directory fetch endpoint
succeeds exactly when the first grant found on the walk path holds read;
and mere existence of any grant for the user on the directory already puts
the directory into the tree visibility set. -/
theorem c10_fetch_requires_read (s : Store) (u D : Nat) (role : UserRole)
    (dir : Directory)
    (hfind : findDir s D = some dir) (hrole : role ≠ .super_admin)
    (hpub : dir.is_public = false) (hown : dir.owner_id ≠ u) :
    (get_directory_endpoint s D ⟨u, role⟩ = .ok dir ↔
      ∃ g, (pathIds s D dir).findSome? (fun i => findGrant s u i) = some g ∧
        PermissionType.read ∈ g.permissions) ∧
    ((∃ g ∈ s.grants, g.user_id = u ∧ g.directory_id = D) →
      ∃ d ∈ get_user_directories s u role, d.id = D) := by
  constructor
  · have hca : can_access_directory s u D = check_permission s u D .read := by
      unfold can_access_directory
      rw [hfind]
      simp [hown]
    have hcp := check_permission_not_owner (a := .read) hfind hown
    rw [scanPath_eq_findSome] at hcp
    have hend : get_directory_endpoint s D ⟨u, role⟩ =
        (if check_permission s u D .read = true then GetDirResult.ok dir
          else .forbidden) := by
      unfold get_directory_endpoint
      rw [hfind]
      simp [hrole, hpub, hown, hca]
    rw [hend, hcp]
    cases hfs : (pathIds s D dir).findSome? (fun i => findGrant s u i) with
    | none => simp
    | some g =>
      by_cases hr : PermissionType.read ∈ g.permissions
      · simp [hr]
      · simp [hr]
  · rintro ⟨g, hg, hgu, hgd⟩
    exact mem_vis_of_grant hrole hfind hg hgu hgd

/-- C10 witness: in `storeWriteGrant` user 5 holds only `{write}` on the
non-public directory 2, so the fetch is denied, although the directory is
in user 5's tree visibility set. -/
theorem c10_fetch_requires_read_witness :
    (get_directory_endpoint storeWriteGrant 2 ⟨5, .user⟩ =
        .ok ⟨2, "d", 100, none, "/d", false, 0⟩ ↔
      ∃ g, ((pathIds storeWriteGrant 2
          ⟨2, "d", 100, none, "/d", false, 0⟩).findSome?
          (fun i => findGrant storeWriteGrant 5 i)) = some g ∧
        PermissionType.read ∈ g.permissions) ∧
    (∃ d ∈ get_user_directories storeWriteGrant 5 .user, d.id = 2) ∧
    get_directory_endpoint storeWriteGrant 2 ⟨5, .user⟩ = .forbidden := by
  obtain ⟨h1, h2⟩ := c10_fetch_requires_read storeWriteGrant 5 2 .user
    ⟨2, "d", 100, none, "/d", false, 0⟩ (by decide) (by decide) (by decide) (by decide)
  exact ⟨h1, h2 ⟨⟨60, 5, 2, [.write], 100, 0⟩, by decide, rfl, rfl⟩, by decide⟩

/-! ## C6 — tree build: visibility set and forest assembly -/

lemma foldl_addIfNew_nodup : ∀ (l : List Directory) (acc : List Directory × List Nat),
    acc.2.Nodup → (l.foldl addIfNew acc).2.Nodup := by
  intro l
  induction l with
  | nil => exact fun acc h => h
  | cons d rest ih =>
    intro acc h
    simp only [List.foldl_cons]
    by_cases hd : d.id ∈ acc.2
    · rw [show addIfNew acc d = acc from by simp [addIfNew, hd]]
      exact ih acc h
    · rw [show addIfNew acc d = (acc.1 ++ [d], acc.2 ++ [d.id]) from by
        simp [addIfNew, hd]]
      apply ih
      simp [List.nodup_append, h, hd]

lemma foldl_addIfNew_mem (dirs : List Directory)
    (hinj : ∀ a ∈ dirs, ∀ b ∈ dirs, a.id = b.id → a = b) :
    ∀ (l : List Directory) (acc : List Directory × List Nat),
      (∀ x ∈ acc.1, x ∈ dirs) → (∀ x ∈ l, x ∈ dirs) →
      acc.2 = acc.1.map (fun d => d.id) →
      (∀ x ∈ (l.foldl addIfNew acc).1, x ∈ dirs) ∧
      (∀ x, x ∈ (l.foldl addIfNew acc).1 ↔ x ∈ acc.1 ∨ x ∈ l) := by
  intro l
  induction l with
  | nil =>
    intro acc h1 h2 h3
    exact ⟨h1, fun x => by simp⟩
  | cons d rest ih =>
    intro acc h1 h2 h3
    simp only [List.foldl_cons]
    by_cases hd : d.id ∈ acc.2
    · have hdin : d ∈ acc.1 := by
        rw [h3] at hd
        obtain ⟨y, hy, hyid⟩ := List.mem_map.mp hd
        have hyd : y = d := hinj y (h1 y hy) d (h2 d (by simp)) hyid
        rw [← hyd]
        exact hy
      rw [show addIfNew acc d = acc from by simp [addIfNew, hd]]
      obtain ⟨ha, hb⟩ := ih acc h1 (fun x hx => h2 x (List.mem_cons_of_mem _ hx)) h3
      refine ⟨ha, fun x => ?_⟩
      rw [hb x]
      constructor
      · rintro (hx | hx)
        · exact Or.inl hx
        · exact Or.inr (List.mem_cons_of_mem _ hx)
      · rintro (hx | hx)
        · exact Or.inl hx
        · rcases List.mem_cons.mp hx with rfl | hx2
          · exact Or.inl hdin
          · exact Or.inr hx2
    · rw [show addIfNew acc d = (acc.1 ++ [d], acc.2 ++ [d.id]) from by
        simp [addIfNew, hd]]
      obtain ⟨ha, hb⟩ := ih (acc.1 ++ [d], acc.2 ++ [d.id])
        (fun x hx => by
          rcases List.mem_append.mp hx with h | h
          · exact h1 x h
          · rw [List.mem_singleton.mp h]
            exact h2 d (by simp))
        (fun x hx => h2 x (List.mem_cons_of_mem _ hx))
        (by simp [h3])
      refine ⟨ha, fun x => ?_⟩
      rw [hb x]
      constructor
      · rintro (hx | hx)
        · rcases List.mem_append.mp hx with h | h
          · exact Or.inl h
          · exact Or.inr (by simp [List.mem_singleton.mp h])
        · exact Or.inr (List.mem_cons_of_mem _ hx)
      · rintro (hx | hx)
        · exact Or.inl (List.mem_append_left _ hx)
        · rcases List.mem_cons.mp hx with rfl | hx2
          · exact Or.inl (List.mem_append_right _ (by simp))
          · exact Or.inr hx2

lemma mem_get_user_directories {s : Store} {u : Nat} {role : UserRole}
    (hrole : role ≠ .super_admin)
    (hnd : (s.dirs.map (fun d => d.id)).Nodup) :
    (∀ d, d ∈ get_user_directories s u role ↔
      d ∈ s.dirs ∧ (d.owner_id = u ∨ d.is_public = true ∨
        ∃ g ∈ s.grants, g.user_id = u ∧ g.directory_id = d.id)) ∧
    ((get_user_directories s u role).map (fun d => d.id)).Nodup := by
  have hinj : ∀ a ∈ s.dirs, ∀ b ∈ s.dirs, a.id = b.id → a = b :=
    fun a ha b hb hab => dirs_id_inj hnd ha hb hab
  unfold get_user_directories
  rw [if_neg hrole]
  dsimp only
  set owned := s.dirs.filter (fun d => d.owner_id == u) with howned
  set publics := s.dirs.filter (fun d => d.is_public) with hpublics
  set step1 := publics.foldl addIfNew (owned, owned.map (fun d => d.id))
    with hstep1
  set shared_ids := (s.grants.filter (fun g => g.user_id == u)).map
    (fun g => g.directory_id) with hshared_ids
  set shared := s.dirs.filter (fun d => decide (d.id ∈ shared_ids)) with hshared
  have howned_sub : ∀ x ∈ owned, x ∈ s.dirs :=
    fun x hx => (List.mem_filter.mp hx).1
  have hpub_sub : ∀ x ∈ publics, x ∈ s.dirs :=
    fun x hx => (List.mem_filter.mp hx).1
  have hsh_sub : ∀ x ∈ shared, x ∈ s.dirs :=
    fun x hx => (List.mem_filter.mp hx).1
  obtain ⟨hsub1, hmem1⟩ :=
    foldl_addIfNew_mem s.dirs hinj publics (owned, owned.map (fun d => d.id))
      howned_sub hpub_sub rfl
  have hsnd : step1.2 = step1.1.map (fun d => d.id) :=
    foldl_addIfNew_snd publics _ rfl
  have hshared_iff : ∀ x : Directory, x.id ∈ shared_ids ↔
      ∃ g ∈ s.grants, g.user_id = u ∧ g.directory_id = x.id := by
    intro x
    rw [hshared_ids]
    constructor
    · intro hx
      obtain ⟨g, hg, hgid⟩ := List.mem_map.mp hx
      have := List.mem_filter.mp hg
      exact ⟨g, this.1, by simpa using this.2, hgid⟩
    · rintro ⟨g, hg, hgu, hgd⟩
      exact hgd ▸ List.mem_map_of_mem _ (List.mem_filter.mpr ⟨hg, by simp [hgu]⟩)
  constructor
  · intro d
    constructor
    · intro hd
      rcases List.mem_append.mp hd with hd1 | hd2
      · rcases (hmem1 d).mp hd1 with ho | hp
        · have := List.mem_filter.mp ho
          exact ⟨this.1, Or.inl (by simpa using this.2)⟩
        · have := List.mem_filter.mp hp
          exact ⟨this.1, Or.inr (Or.inl (by simpa using this.2))⟩
      · have hmf := List.mem_filter.mp hd2
        have := List.mem_filter.mp hmf.1
        refine ⟨this.1, Or.inr (Or.inr ?_)⟩
        exact (hshared_iff d).mp (by simpa using this.2)
    · rintro ⟨hdm, ho | hp | hg⟩
      · exact List.mem_append_left _ ((hmem1 d).mpr
          (Or.inl (List.mem_filter.mpr ⟨hdm, by simp [ho]⟩)))
      · exact List.mem_append_left _ ((hmem1 d).mpr
          (Or.inr (List.mem_filter.mpr ⟨hdm, by simp [hp]⟩)))
      · have hdsh : d ∈ shared :=
          List.mem_filter.mpr ⟨hdm, by simp [(hshared_iff d).mpr hg]⟩
        by_cases hin : d.id ∈ step1.2
        · rw [hsnd] at hin
          obtain ⟨y, hy, hyid⟩ := List.mem_map.mp hin
          have hyd : y = d := hinj y (hsub1 y hy) d hdm hyid
          exact List.mem_append_left _ (hyd ▸ hy)
        · exact List.mem_append_right _
            (List.mem_filter.mpr ⟨hdsh, by simpa using hin⟩)
  · rw [List.map_append, List.nodup_append]
    refine ⟨?_, ?_, ?_⟩
    · rw [← hsnd]
      apply foldl_addIfNew_nodup
      exact hnd.sublist ((List.filter_sublist s.dirs).map _)
    · apply List.Nodup.sublist ?_ hnd
      exact ((List.filter_sublist shared).trans (List.filter_sublist s.dirs)).map _
    · intro y hy
      rw [← hsnd] at hy
      intro hy2
      obtain ⟨x, hx, hxid⟩ := List.mem_map.mp hy2
      have := (List.mem_filter.mp hx).2
      rw [hxid] at this
      simp only [decide_eq_true_eq] at this
      exact this hy

lemma buildNode_id (vis : List Directory) (fuel : Nat) (d : Directory) :
    (buildNode vis fuel d).id = d.id := by
  cases fuel <;> rfl

lemma isTreeRoot_iff {visIds : List Nat} {d : Directory} :
    isTreeRoot visIds d = true ↔ ∀ p, d.parent_id = some p → p ∉ visIds := by
  unfold isTreeRoot
  cases hp : d.parent_id with
  | none => simp
  | some p => simp

/-- C6 (confirmed): for a non-super-admin the visibility set of the tree
builder is exactly the directories owned by the user, public, or carrying
any grant for the user, deduplicated by identifier; a super admin sees all
directories.  In the assembled forest a visible node surfaces as a root
exactly when its `parent_id` is absent or names no visible directory, and
the children of a node are exactly the visible directories whose
`parent_id` names it — ancestors are never synthesized. -/
theorem c6_tree_build (s : Store) (u : Nat) (role : UserRole)
    (hnd : (s.dirs.map (fun d => d.id)).Nodup) :
    (role = .super_admin → get_user_directories s u role = s.dirs) ∧
    (role ≠ .super_admin →
      ((get_user_directories s u role).map (fun d => d.id)).Nodup ∧
      ∀ d, d ∈ get_user_directories s u role ↔
        d ∈ s.dirs ∧ (d.owner_id = u ∨ d.is_public = true ∨
          ∃ g ∈ s.grants, g.user_id = u ∧ g.directory_id = d.id)) ∧
    (∀ i, (∃ t ∈ get_directory_tree s u role, t.id = i) ↔
      ∃ d ∈ get_user_directories s u role, d.id = i ∧
        ∀ p, d.parent_id = some p →
          ∀ e ∈ get_user_directories s u role, e.id ≠ p) ∧
    (∀ (d : Directory) (fuel : Nat),
      (buildNode (get_user_directories s u role) (fuel + 1) d).children.map
        (fun t => t.id) =
      ((get_user_directories s u role).filter
        (fun c => c.parent_id == some d.id)).map (fun c => c.id)) := by
  refine ⟨?_, ?_, ?_, ?_⟩
  · intro hr
    unfold get_user_directories
    rw [if_pos hr]
  · intro hr
    obtain ⟨hmem, hnodup⟩ := mem_get_user_directories hr hnd
    exact ⟨hnodup, hmem⟩
  · intro i
    unfold get_directory_tree
    dsimp only
    constructor
    · rintro ⟨t, ht, hti⟩
      obtain ⟨d0, hd0, rfl⟩ := List.mem_map.mp ht
      have hf := List.mem_filter.mp hd0
      refine ⟨d0, hf.1, by rw [← hti]; exact (buildNode_id ..).symm, ?_⟩
      intro p hp e he hep
      have := isTreeRoot_iff.mp hf.2 p hp
      exact this (hep ▸ List.mem_map_of_mem _ he)
    · rintro ⟨d, hd, hdi, hroot⟩
      refine ⟨buildNode (get_user_directories s u role)
        (get_user_directories s u role).length d, ?_, by
          rw [buildNode_id]; exact hdi⟩
      apply List.mem_map_of_mem
      apply List.mem_filter.mpr
      refine ⟨hd, isTreeRoot_iff.mpr ?_⟩
      intro p hp hpin
      obtain ⟨e, he, hei⟩ := List.mem_map.mp hpin
      exact hroot p hp e he hei
  · intro d fuel
    simp only [buildNode, List.map_map]
    apply List.map_congr_left
    intro c _
    exact buildNode_id ..

/-- C6 witness: for user 5 on `storeChain` the visibility set is the public
root 1 plus the granted directory 2 (the leaf 3 is invisible), and the
forest has the single root 1. -/
theorem c6_tree_build_witness :
    (get_user_directories storeChain 5 .user).map (fun d => d.id) = [1, 2] ∧
    (get_directory_tree storeChain 5 .user).map (fun t => t.id) = [1] ∧
    (∃ t ∈ get_directory_tree storeChain 5 .user, t.id = 1) := by
  refine ⟨by rfl, by rfl, ?_⟩
  exact ((c6_tree_build storeChain 5 .user (by decide)).2.2.1 1).mpr
    ⟨⟨1, "a", 100, none, "/a", true, 0⟩, by decide, rfl,
      fun p hp => absurd hp (by simp)⟩

/-! ## C5 — cascade plan: breadth-first traversal without a revisit guard -/

lemma childIds_nodup {s : Store} (hnd : (s.dirs.map (fun d => d.id)).Nodup)
    (p : Nat) : (childIds s p).Nodup := by
  unfold childIds
  exact hnd.sublist ((List.filter_sublist s.dirs).map (fun d => d.id))

lemma parent_unique {s : Store} (hnd : (s.dirs.map (fun d => d.id)).Nodup)
    {p1 p2 c : Nat} (h1 : IsChild s p1 c) (h2 : IsChild s p2 c) : p1 = p2 := by
  unfold IsChild childIds at h1 h2
  obtain ⟨d1, hd1, hid1⟩ := List.mem_map.mp h1
  obtain ⟨d2, hd2, hid2⟩ := List.mem_map.mp h2
  have hm1 := List.mem_filter.mp hd1
  have hm2 := List.mem_filter.mp hd2
  have hd12 : d1 = d2 := dirs_id_inj hnd hm1.1 hm2.1 (by rw [hid1, hid2])
  have hp1 : d1.parent_id = some p1 := by simpa using hm1.2
  have hp2 : d2.parent_id = some p2 := by simpa using hm2.2
  rw [hd12] at hp1
  exact Option.some.inj (hp1.symm.trans hp2)

lemma tg_rank_lt {s : Store} {rank : Nat → Nat}
    (hrank : ∀ p c, IsChild s p c → rank c < rank p) :
    ∀ {a b : Nat}, Relation.TransGen (IsChild s) a b → rank b < rank a := by
  intro a b h
  induction h with
  | single h1 => exact hrank _ _ h1
  | tail _ h2 ih => exact lt_trans (hrank _ _ h2) ih

lemma tg_irrefl {s : Store} {rank : Nat → Nat}
    (hrank : ∀ p c, IsChild s p c → rank c < rank p) (a : Nat) :
    ¬ Relation.TransGen (IsChild s) a a :=
  fun h => lt_irrefl _ (tg_rank_lt hrank h)

lemma getDescendantIdsAux_acc {s : Store} :
    ∀ (fuel : Nat) (q r : List Nat),
      getDescendantIdsAux s fuel q r =
        (getDescendantIdsAux s fuel q []).map (fun l => r ++ l) := by
  intro fuel
  induction fuel with
  | zero =>
    intro q r
    cases q with
    | nil => simp [getDescendantIdsAux]
    | cons p q2 => simp [getDescendantIdsAux]
  | succ n ih =>
    intro q r
    cases q with
    | nil => simp [getDescendantIdsAux]
    | cons p q2 =>
      show getDescendantIdsAux s n (q2 ++ childIds s p) (r ++ childIds s p) = _
      rw [ih (q2 ++ childIds s p) (r ++ childIds s p)]
      rw [show getDescendantIdsAux s (n + 1) (p :: q2) [] =
        getDescendantIdsAux s n (q2 ++ childIds s p) ([] ++ childIds s p)
        from rfl]
      rw [List.nil_append, ih (q2 ++ childIds s p) (childIds s p)]
      cases getDescendantIdsAux s n (q2 ++ childIds s p) [] <;> simp

lemma bfsWeight_append (N : Nat) (rank : Nat → Nat) (q1 q2 : List Nat) :
    bfsWeight N rank (q1 ++ q2) = bfsWeight N rank q1 + bfsWeight N rank q2 := by
  simp [bfsWeight]

lemma bfsWeight_cons (N : Nat) (rank : Nat → Nat) (p : Nat) (q : List Nat) :
    bfsWeight N rank (p :: q) = (N + 1) ^ (rank p + 1) + bfsWeight N rank q := by
  simp [bfsWeight]

lemma bfsWeight_childIds_lt {s : Store} {rank : Nat → Nat}
    (hrank : ∀ p c, IsChild s p c → rank c < rank p) (p : Nat) :
    bfsWeight s.dirs.length rank (childIds s p) <
      (s.dirs.length + 1) ^ (rank p + 1) := by
  have hlen : (childIds s p).length ≤ s.dirs.length := by
    unfold childIds
    rw [List.length_map]
    exact List.length_filter_le _ _
  have hbound : ∀ x ∈ (childIds s p).map
      (fun y => (s.dirs.length + 1) ^ (rank y + 1)),
      x ≤ (s.dirs.length + 1) ^ (rank p) := by
    intro x hx
    obtain ⟨c, hc, rfl⟩ := List.mem_map.mp hx
    have hlt := hrank p c hc
    exact Nat.pow_le_pow_right (by omega) (by omega)
  have hsum := List.sum_le_card_nsmul _ _ hbound
  rw [List.length_map, smul_eq_mul] at hsum
  have hB : 0 < (s.dirs.length + 1) ^ (rank p) := pow_pos (by omega) _
  calc bfsWeight s.dirs.length rank (childIds s p)
      ≤ (childIds s p).length * (s.dirs.length + 1) ^ (rank p) := hsum
    _ ≤ s.dirs.length * (s.dirs.length + 1) ^ (rank p) :=
        Nat.mul_le_mul_right _ hlen
    _ < (s.dirs.length + 1) * (s.dirs.length + 1) ^ (rank p) :=
        Nat.mul_lt_mul_of_lt_of_le (by omega) (le_refl _) hB
    _ = (s.dirs.length + 1) ^ (rank p + 1) := by
        rw [pow_succ, Nat.mul_comm]

lemma bfs_spec {s : Store} {rank : Nat → Nat}
    (hnd : (s.dirs.map (fun d => d.id)).Nodup)
    (hrank : ∀ p c, IsChild s p c → rank c < rank p) :
    ∀ (fuel : Nat) (q : List Nat),
      bfsWeight s.dirs.length rank q ≤ fuel →
      q.Pairwise (fun a b => a ≠ b ∧ ¬ Relation.TransGen (IsChild s) a b ∧
        ¬ Relation.TransGen (IsChild s) b a) →
      ∃ res, getDescendantIdsAux s fuel q [] = some res ∧ res.Nodup ∧
        (∀ x, x ∈ res ↔ ∃ y ∈ q, Relation.TransGen (IsChild s) y x) := by
  intro fuel
  induction fuel with
  | zero =>
    intro q hw hinv
    cases q with
    | nil => exact ⟨[], rfl, List.nodup_nil, by simp⟩
    | cons p q2 =>
      exfalso
      rw [bfsWeight_cons] at hw
      have := pow_pos (show 0 < s.dirs.length + 1 by omega) (rank p + 1)
      omega
  | succ n ih =>
    intro q hw hinv
    cases q with
    | nil => exact ⟨[], rfl, List.nodup_nil, by simp⟩
    | cons p q2 =>
      have hstep : getDescendantIdsAux s (n + 1) (p :: q2) [] =
          (getDescendantIdsAux s n (q2 ++ childIds s p) []).map
            (fun l => childIds s p ++ l) := by
        rw [show getDescendantIdsAux s (n + 1) (p :: q2) [] =
          getDescendantIdsAux s n (q2 ++ childIds s p) ([] ++ childIds s p)
          from rfl]
        rw [List.nil_append]
        exact getDescendantIdsAux_acc n (q2 ++ childIds s p) (childIds s p)
      rw [List.pairwise_cons] at hinv
      obtain ⟨hpq, hq2⟩ := hinv
      have hchild : ∀ c ∈ childIds s p, IsChild s p c := fun c hc => hc
      have hirr := tg_irrefl hrank
      have hchTG : ∀ c1 ∈ childIds s p, ∀ c2 ∈ childIds s p,
          ¬ Relation.TransGen (IsChild s) c1 c2 := by
        intro c1 hc1 c2 hc2 hTG
        obtain ⟨m, hm1, hm2⟩ := Relation.TransGen.tail'_iff.mp hTG
        have hmp : m = p := parent_unique hnd hm2 (hchild c2 hc2)
        subst hmp
        rcases Relation.reflTransGen_iff_eq_or_transGen.mp hm1 with heq | hTG2
        · exact hirr c1 (Relation.TransGen.single (heq ▸ hchild c1 hc1))
        · exact hirr c1 (hTG2.trans (Relation.TransGen.single (hchild c1 hc1)))
      have hcross : ∀ a ∈ q2, ∀ c ∈ childIds s p,
          a ≠ c ∧ ¬ Relation.TransGen (IsChild s) a c ∧
            ¬ Relation.TransGen (IsChild s) c a := by
        intro a ha c hc
        obtain ⟨hpa1, hpa2, hpa3⟩ := hpq a ha
        refine ⟨?_, ?_, ?_⟩
        · rintro rfl
          exact hpa2 (Relation.TransGen.single (hchild a hc))
        · intro hTG
          obtain ⟨m, hm1, hm2⟩ := Relation.TransGen.tail'_iff.mp hTG
          have hmp : m = p := parent_unique hnd hm2 (hchild c hc)
          subst hmp
          rcases Relation.reflTransGen_iff_eq_or_transGen.mp hm1 with heq | hTG2
          · exact hpa1 heq
          · exact hpa3 hTG2
        · intro hTG
          exact hpa2 ((Relation.TransGen.single (hchild c hc)).trans hTG)
      have hinv2 : (q2 ++ childIds s p).Pairwise
          (fun a b => a ≠ b ∧ ¬ Relation.TransGen (IsChild s) a b ∧
            ¬ Relation.TransGen (IsChild s) b a) := by
        rw [List.pairwise_append]
        refine ⟨hq2, ?_, fun a ha b hb => hcross a ha b hb⟩
        exact List.Pairwise.imp_of_mem
          (fun {a b} ha hb hne => ⟨hne, hchTG a ha b hb, hchTG b hb a ha⟩)
          (childIds_nodup hnd p)
      have hwlt : bfsWeight s.dirs.length rank (q2 ++ childIds s p) ≤ n := by
        rw [bfsWeight_append]
        rw [bfsWeight_cons] at hw
        have := bfsWeight_childIds_lt hrank p
        omega
      obtain ⟨res2, hres2, hnd2, hmem2⟩ := ih (q2 ++ childIds s p) hwlt hinv2
      refine ⟨childIds s p ++ res2, ?_, ?_, ?_⟩
      · rw [hstep, hres2]
        rfl
      · rw [List.nodup_append]
        refine ⟨childIds_nodup hnd p, hnd2, ?_⟩
        intro x hx hx2
        obtain ⟨y, hy, hyTG⟩ := (hmem2 x).mp hx2
        rcases List.mem_append.mp hy with hyq | hyc
        · exact (hcross y hyq x hx).2.1 hyTG
        · exact hchTG y hyc x hx hyTG
      · intro x
        constructor
        · intro hx
          rcases List.mem_append.mp hx with hxc | hxr
          · exact ⟨p, by simp, Relation.TransGen.single (hchild x hxc)⟩
          · obtain ⟨y, hy, hyTG⟩ := (hmem2 x).mp hxr
            rcases List.mem_append.mp hy with hyq | hyc
            · exact ⟨y, by simp [hyq], hyTG⟩
            · exact ⟨p, by simp,
                (Relation.TransGen.single (hchild y hyc)).trans hyTG⟩
        · rintro ⟨y, hy, hyTG⟩
          rcases List.mem_cons.mp hy with rfl | hyq
          · obtain ⟨b, hb1, hb2⟩ := Relation.TransGen.head'_iff.mp hyTG
            rcases Relation.reflTransGen_iff_eq_or_transGen.mp hb2 with heq | hTG2
            · subst heq
              exact List.mem_append_left _ hb1
            · exact List.mem_append_right _
                ((hmem2 x).mpr ⟨b, List.mem_append_right _ hb1, hTG2⟩)
          · exact List.mem_append_right _
              ((hmem2 x).mpr ⟨y, List.mem_append_left _ hyq, hyTG⟩)

/-- C5 (amended): the descendant enumeration is a breadth-first traversal
via `parent_id` links with NO revisit guard.  On a store whose parent links
are acyclic — witnessed by a rank function decreasing from parent to child —
some fuel completes the traversal and the plan (target plus enumeration)
holds exactly the target and every direct or transitive descendant, each
exactly once.  On a store with a parent cycle the queue never empties and
already-collected identifiers are re-collected: see the counterexample. -/
theorem c5_cascade_plan (s : Store) (root : Nat) (rank : Nat → Nat)
    (hnd : (s.dirs.map (fun d => d.id)).Nodup)
    (hrank : ∀ p c, IsChild s p c → rank c < rank p) :
    ∃ fuel ds, get_descendant_ids s root fuel = some ds ∧
      (root :: ds).Nodup ∧
      (∀ x, x ∈ root :: ds ↔ Relation.ReflTransGen (IsChild s) root x) := by
  obtain ⟨res, hres, hnodup, hmem⟩ :=
    bfs_spec hnd hrank (bfsWeight s.dirs.length rank [root]) [root] le_rfl
      (by simp)
  refine ⟨bfsWeight s.dirs.length rank [root], res, hres, ?_, ?_⟩
  · rw [List.nodup_cons]
    refine ⟨fun hin => ?_, hnodup⟩
    obtain ⟨y, hy, hTG⟩ := (hmem root).mp hin
    rw [List.mem_singleton] at hy
    rw [hy] at hTG
    exact tg_irrefl hrank root hTG
  · intro x
    rw [List.mem_cons, hmem x]
    simp only [List.mem_singleton]
    constructor
    · rintro (rfl | ⟨y, rfl, hTG⟩)
      · exact Relation.ReflTransGen.refl
      · exact hTG.to_reflTransGen
    · intro h
      rcases Relation.reflTransGen_iff_eq_or_transGen.mp h with rfl | hTG
      · exact Or.inl rfl
      · exact Or.inr ⟨root, rfl, hTG⟩

/-- C5 witness: on the acyclic `storeChain` (rank witnessed by
`fun n => 3 - n`) the plan from the root is exactly the chain 1, 2, 3, each
exactly once. -/
theorem c5_cascade_plan_witness :
    (storeChain.dirs.map (fun d => d.id)).Nodup ∧
    ∃ fuel ds, get_descendant_ids storeChain 1 fuel = some ds ∧
      (1 :: ds).Nodup ∧
      (∀ x, x ∈ 1 :: ds ↔ Relation.ReflTransGen (IsChild storeChain) 1 x) := by
  refine ⟨by decide, ?_⟩
  apply c5_cascade_plan storeChain 1 (fun n => 3 - n) (by decide)
  intro p c h
  have h2 : c ∈ childIds storeChain p := h
  unfold childIds storeChain at h2
  simp only [List.mem_map, List.mem_filter, List.mem_cons,
    List.not_mem_nil, or_false] at h2
  obtain ⟨d, ⟨hdm, hdp⟩, hdc⟩ := h2
  rcases hdm with rfl | rfl | rfl <;> simp_all <;> omega

/-- C5 counterexample: on the parent two-cycle of `storeCycle` the
enumeration started at 10 never empties its queue within 100 pops, and the
partial result after 4 pops has already collected identifier 11 twice —
there is no revisit guard, and on a cyclic store the traversal neither
terminates nor returns each descendant exactly once. -/
theorem c5_claim_counterexample :
    get_descendant_ids storeCycle 10 100 = none ∧
    (descendState storeCycle 4 [10] []).2 = [11, 10, 11, 10] ∧
    (descendState storeCycle 4 [10] []).2.count 11 = 2 := by
  decide

/-! ## C9 — cascade delete phase ordering -/

lemma deleteFilesIn_not_mem {s0 : Store} {plan : List Nat} {f : FileDoc}
    (hf : f ∈ (deleteFilesIn s0 plan).files) : f.directory_id ∉ plan := by
  have h := (List.mem_filter.mp hf).2
  simpa using h

lemma deleteGrantsIn_not_mem {s0 : Store} {plan : List Nat} {g : Grant}
    (hg : g ∈ (deleteGrantsIn s0 plan).grants) : g.directory_id ∉ plan := by
  have h := (List.mem_filter.mp hg).2
  simpa using h

/-- C9 (confirmed): the cascade branch of `delete_directory` issues the
three delete phases in the order files, grants, directories over the single
planned id set, and at every one of the four states this sequence passes
through, no surviving file or grant references a planned directory that has
already been deleted. -/
theorem c9_cascade_order (s : Store) (D u : Nat) (role : UserRole) (fuel : Nat)
    (dir : Directory) (ds : List Nat)
    (hfind : findDir s D = some dir)
    (hauth : ¬(dir.owner_id ≠ u ∧ role ≠ UserRole.super_admin))
    (hds : get_descendant_ids s D fuel = some ds) :
    delete_directory s D u role true fuel =
      some (.ok (true, deleteDirsIn (deleteGrantsIn (deleteFilesIn s (D :: ds))
        (D :: ds)) (D :: ds))) ∧
    ∀ st ∈ cascadeStates s (D :: ds), NoCascadeOrphans s st (D :: ds) := by
  constructor
  · unfold delete_directory
    rw [hfind]
    simp [hds, hauth]
  · intro st hst
    simp only [cascadeStates, List.mem_cons, List.not_mem_nil, or_false] at hst
    rcases hst with rfl | rfl | rfl | rfl
    · exact ⟨fun f hf d hd hfd hplan => hd, fun g hg d hd hgd hplan => hd⟩
    · refine ⟨fun f hf d hd hfd hplan => ?_, fun g hg d hd hgd hplan => hd⟩
      exact absurd (show f.directory_id ∈ D :: ds from hfd ▸ hplan)
        (deleteFilesIn_not_mem hf)
    · refine ⟨fun f hf d hd hfd hplan => ?_, fun g hg d hd hgd hplan => ?_⟩
      · exact absurd (show f.directory_id ∈ D :: ds from hfd ▸ hplan)
          (deleteFilesIn_not_mem hf)
      · exact absurd (show g.directory_id ∈ D :: ds from hgd ▸ hplan)
          (deleteGrantsIn_not_mem hg)
    · refine ⟨fun f hf d hd hfd hplan => ?_, fun g hg d hd hgd hplan => ?_⟩
      · exact absurd (show f.directory_id ∈ D :: ds from hfd ▸ hplan)
          (deleteFilesIn_not_mem hf)
      · exact absurd (show g.directory_id ∈ D :: ds from hgd ▸ hplan)
          (deleteGrantsIn_not_mem hg)

/-- C9 witness: the cascade on the root of `storeChain` plans `[1, 2, 3]`,
deletes files, then grants, then directories, and every intermediate state
is orphan-free. -/
theorem c9_cascade_order_witness :
    delete_directory storeChain 1 100 .admin true 10 =
      some (.ok (true, deleteDirsIn (deleteGrantsIn (deleteFilesIn storeChain
        [1, 2, 3]) [1, 2, 3]) [1, 2, 3])) ∧
    ∀ st ∈ cascadeStates storeChain [1, 2, 3],
      NoCascadeOrphans storeChain st [1, 2, 3] :=
  c9_cascade_order storeChain 1 100 .admin 10
    ⟨1, "a", 100, none, "/a", true, 0⟩ [2, 3]
    (by decide) (by decide) (by decide)

/-! ## C7 — grant upsert keeps one record per (grantee, directory) pair -/

lemma find?_decomp {α : Type} {p : α → Bool} {l : List α} {a : α}
    (h : l.find? p = some a) :
    ∃ l1 l2, l = l1 ++ a :: l2 ∧ ∀ x ∈ l1, p x = false := by
  induction l with
  | nil => cases h
  | cons x xs ih =>
    by_cases hx : p x
    · rw [List.find?_cons_of_pos _ hx] at h
      injection h with h
      subst h
      exact ⟨[], xs, rfl, by simp⟩
    · rw [List.find?_cons_of_neg _ hx] at h
      obtain ⟨l1, l2, hl, hl1⟩ := ih h
      refine ⟨x :: l1, l2, by simp [hl], ?_⟩
      intro y hy
      rcases List.mem_cons.mp hy with rfl | hy2
      · simpa using hx
      · exact hl1 y hy2

lemma updateFirst_append {p : Grant → Bool} {f : Grant → Grant}
    {l1 l2 : List Grant} {x : Grant}
    (h1 : ∀ y ∈ l1, p y = false) (hx : p x = true) :
    updateFirst p f (l1 ++ x :: l2) = l1 ++ f x :: l2 := by
  induction l1 with
  | nil => simp [updateFirst, hx]
  | cons y ys ih =>
    have hy := h1 y (List.mem_cons_self y ys)
    simp only [List.cons_append, updateFirst, hy]
    simp [ih fun z hz => h1 z (List.mem_cons_of_mem y hz)]

/-- C7 (confirmed): `grant_permission` on a well-formed store preserves
well-formedness — in particular at most one grant record per (grantee,
directory) pair ever exists — and leaves the target pair with exactly one
record whose capability set is the newly granted one, all other pairs
untouched; so after any sequence of grants each pair holds the most recent
set. -/
theorem c7_grant_upsert (s : Store) (email : String) (perms : List PermissionType)
    (D granter now : Nat) (user : UserDoc) (s2 : Store)
    (hwf : GrantsWF s)
    (huser : s.users.find? (fun v => v.email == email) = some user)
    (hok : grant_permission s email perms D granter now = .ok s2) :
    GrantsWF s2 ∧
    (grantsFor s2 user.id D).map (fun g => g.permissions) = [perms] ∧
    (∀ u2 d2, ¬(u2 = user.id ∧ d2 = D) →
      grantsFor s2 u2 d2 = grantsFor s u2 d2) := by
  obtain ⟨hids, hbound, hkeys⟩ := hwf
  unfold grant_permission at hok
  cases hd : findDir s D with
  | none => rw [hd] at hok; exact absurd hok (by simp)
  | some directory =>
    rw [hd] at hok
    dsimp only at hok
    by_cases ho : directory.owner_id ≠ granter
    · rw [if_pos ho] at hok
      exact absurd hok (by simp)
    · rw [if_neg ho, huser] at hok
      dsimp only at hok
      by_cases hself : user.id = granter
      · rw [if_pos hself] at hok
        exact absurd hok (by simp)
      · rw [if_neg hself] at hok
        cases hex : s.grants.find?
            (fun g => g.user_id == user.id && g.directory_id == D) with
        | none =>
          rw [hex] at hok
          injection hok with hok
          subst hok
          have hnomem : ∀ g ∈ s.grants,
              ¬(g.user_id = user.id ∧ g.directory_id = D) := by
            intro g hg hcontra
            have := List.find?_eq_none.mp hex g hg
            simp only [Bool.and_eq_true, beq_iff_eq] at this
            exact this hcontra
          refine ⟨⟨?_, ?_, ?_⟩, ?_, ?_⟩
          · simp only [List.map_append, List.map_cons, List.map_nil]
            rw [List.nodup_append]
            refine ⟨hids, by simp, ?_⟩
            intro y hy
            simp only [List.mem_singleton]
            obtain ⟨g, hg, rfl⟩ := List.mem_map.mp hy
            have := hbound g hg
            omega
          · intro g hg
            rcases List.mem_append.mp hg with hg2 | hg2
            · have := hbound g hg2
              show g.id < s.nextId + 1
              omega
            · simp only [List.mem_singleton] at hg2
              subst hg2
              show s.nextId < s.nextId + 1
              omega
          · simp only [List.map_append, List.map_cons, List.map_nil]
            rw [List.nodup_append]
            refine ⟨hkeys, by simp, ?_⟩
            intro y hy
            simp only [List.mem_singleton]
            obtain ⟨g, hg, rfl⟩ := List.mem_map.mp hy
            intro hcontra
            exact hnomem g hg ⟨congrArg Prod.fst hcontra, congrArg Prod.snd hcontra⟩
          · unfold grantsFor
            dsimp only
            rw [List.filter_append]
            rw [List.filter_eq_nil_iff.mpr ?_, List.nil_append]
            · simp
            · intro g hg hpg
              simp only [Bool.and_eq_true, beq_iff_eq] at hpg
              exact hnomem g hg hpg
          · intro u2 d2 hne
            unfold grantsFor
            dsimp only
            rw [List.filter_append]
            have : List.filter (fun g => g.user_id == u2 && g.directory_id == d2)
                [(⟨s.nextId, user.id, D, perms, granter, now⟩ : Grant)] = [] := by
              simp only [List.filter_cons, List.filter_nil]
              have : ¬(user.id = u2 ∧ D = d2) := fun ⟨h1, h2⟩ => hne ⟨h1.symm, h2.symm⟩
              simp only [Bool.and_eq_true, beq_iff_eq]
              rw [if_neg (by simpa using this)]
            rw [this, List.append_nil]
        | some existing =>
          rw [hex] at hok
          injection hok with hok
          subst hok
          have hexpred := List.find?_some hex
          simp only [Bool.and_eq_true, beq_iff_eq] at hexpred
          obtain ⟨l1, l2, hgr, hl1⟩ := find?_decomp hex
          have hids2 : ((l1 ++ existing :: l2).map (fun g => g.id)).Nodup := by
            rw [← hgr]; exact hids
          have hkeys2 : ((l1 ++ existing :: l2).map
              (fun g => (g.user_id, g.directory_id))).Nodup := by
            rw [← hgr]; exact hkeys
          have hl1id : ∀ y ∈ l1, (y.id == existing.id) = false := by
            intro y hy
            rw [beq_eq_false_iff_ne]
            intro hcontra
            rw [List.map_append] at hids2
            have hmem1 : existing.id ∈ l1.map (fun g => g.id) := by
              rw [← hcontra]
              exact List.mem_map_of_mem _ hy
            exact List.disjoint_of_nodup_append hids2 hmem1 (by simp)
          have hupd : updateFirst (fun g => g.id == existing.id)
              (fun g => { g with permissions := perms }) s.grants =
              l1 ++ { existing with permissions := perms } :: l2 := by
            rw [hgr]
            exact updateFirst_append hl1id (by simp)
          refine ⟨⟨?_, ?_, ?_⟩, ?_, ?_⟩
          · dsimp only
            rw [hupd]
            have : (l1 ++ { existing with permissions := perms } :: l2).map
                (fun g => g.id) = (l1 ++ existing :: l2).map (fun g => g.id) := by
              simp
            rw [this]
            exact hids2
          · intro g hg
            dsimp only at hg ⊢
            rw [hupd] at hg
            rcases List.mem_append.mp hg with hg2 | hg2
            · have hm : g ∈ s.grants := by
                rw [hgr]
                exact List.mem_append_left _ hg2
              exact hbound g hm
            · rcases List.mem_cons.mp hg2 with rfl | hg3
              · have hm : existing ∈ s.grants := by
                  rw [hgr]
                  simp
                have := hbound existing hm
                simpa using this
              · have hm : g ∈ s.grants := by
                  rw [hgr]
                  exact List.mem_append_right _ (List.mem_cons_of_mem _ hg3)
                exact hbound g hm
          · dsimp only
            rw [hupd]
            have : (l1 ++ { existing with permissions := perms } :: l2).map
                (fun g => (g.user_id, g.directory_id)) =
                (l1 ++ existing :: l2).map
                (fun g => (g.user_id, g.directory_id)) := by
              simp
            rw [this]
            exact hkeys2
          · unfold grantsFor
            dsimp only
            rw [hupd]
            rw [List.filter_append]
            rw [List.filter_eq_nil_iff.mpr ?_, List.nil_append]
            · rw [List.filter_cons_of_pos (by simp [hexpred.1, hexpred.2])]
              rw [List.filter_eq_nil_iff.mpr ?_]
              · simp
              · intro g hg hpg
                simp only [Bool.and_eq_true, beq_iff_eq] at hpg
                rw [List.map_append, List.map_cons] at hkeys2
                have hcons := hkeys2.of_append_right
                have hnotin := (List.nodup_cons.mp hcons).1
                have hkeq : ((existing.user_id, existing.directory_id) :
                    Nat × Nat) = (g.user_id, g.directory_id) := by
                  rw [hexpred.1, hexpred.2, hpg.1, hpg.2]
                exact hnotin (by rw [hkeq]; exact List.mem_map_of_mem _ hg)
            · intro g hg hpg
              simp only [Bool.and_eq_true, beq_iff_eq] at hpg
              exact absurd (show (fun g => g.user_id == user.id &&
                g.directory_id == D) g = true from by simp [hpg.1, hpg.2])
                (by simp [hl1 g hg])
          · intro u2 d2 hne
            unfold grantsFor
            dsimp only
            rw [hupd]
            conv_rhs => rw [hgr]
            rw [List.filter_append, List.filter_append]
            congr 1
            have hexk : ¬(existing.user_id = u2 ∧ existing.directory_id = d2) := by
              rintro ⟨h1, h2⟩
              exact hne ⟨by rw [← h1, hexpred.1], by rw [← h2, hexpred.2]⟩
            rw [List.filter_cons_of_neg (by simpa using fun h1 h2 => hexk ⟨h1, h2⟩),
              List.filter_cons_of_neg (by simpa using fun h1 h2 => hexk ⟨h1, h2⟩)]

/-- C7 witness: granting `{read}` and then `{write}` to user 2 on directory
10 leaves exactly one well-formed grant record for the pair, holding
`{write}` — not the union, not two records. -/
theorem c7_grant_upsert_witness :
    grant_permission storeGrantNone "b@x" [.read] 10 1 3 = .ok storeGrantRead ∧
    GrantsWF storeGrantWrite ∧
    (grantsFor storeGrantWrite 2 10).map (fun g => g.permissions) =
      [[PermissionType.write]] := by
  have h := c7_grant_upsert storeGrantRead "b@x" [.write] 10 1 9
    ⟨2, "b@x", .user, true⟩ storeGrantWrite ⟨by decide, by decide, by decide⟩
    (by rfl) (by rfl)
  exact ⟨by rfl, h.1, h.2.1⟩
